import Mathlib

/-!
# Verification of the gate-sequence identity search (`quantum_rules.py`)

The program under verification brute-forces ordered tuples of indices into a
fixed list of five 2x2 complex matrices (quantum gates) and records every
tuple whose left-to-right matrix product equals the 2x2 identity matrix,
for tuple lengths 8 down to 3.

The embedding works over exact arithmetic.  Every number that arises from
the gate matrices lies in the ring of reals of the form `(x + y·√2) / 2^e`
with `x y : ℤ` and `e : ℕ` (the gate entries are `0`, `±1`, `±1/2` and
`±1/√2 = ±√2/2`, and this form is closed under addition and
multiplication), so a complex matrix entry is a pair of such numbers.
numpy's `round` (round half to even, applied separately to the real and
the imaginary part) is modelled exactly through an integer-square-root
computation of `⌊y·√2⌋`.
-/

namespace QG

/-- Integer square root `⌊√n⌋` by binary search, structurally recursive on
a fuel argument.  The invariant is `lo² ≤ n`, `n < (hi+1)²`; every step
shrinks `hi - lo`, so `n` steps of fuel always suffice and `sqrtGo (n+1) 0
n n = ⌊√n⌋` for every `n`. -/
def sqrtGo : Nat → Nat → Nat → Nat → Nat
  | 0, lo, _, _ => lo
  | f + 1, lo, hi, n =>
    if hi ≤ lo then lo
    else
      let mid := (lo + hi + 1) / 2
      if mid * mid ≤ n then sqrtGo f mid hi n else sqrtGo f lo (mid - 1) n

/-- `⌊√n⌋` for a natural number. -/
def isqrtN (n : Nat) : Nat := sqrtGo (n + 1) 0 n n

/-- A real number of the form `(x + y·√2) / 2^e`.  The representation is
not canonical (`(2, 0, 1)` and `(1, 0, 0)` both denote `1`), so equality
of represented values is the explicit test `QRt2.beq`, never structural
equality. -/
structure QRt2 where
  x : ℤ
  y : ℤ
  e : ℕ
deriving DecidableEq, Repr

namespace QRt2

/-- Rescale to denominator exponent `e + k`. -/
def scale (v : QRt2) (k : ℕ) : QRt2 := ⟨v.x * 2 ^ k, v.y * 2 ^ k, v.e + k⟩

def add (v w : QRt2) : QRt2 :=
  ⟨v.x * 2 ^ (w.e - v.e) + w.x * 2 ^ (v.e - w.e),
   v.y * 2 ^ (w.e - v.e) + w.y * 2 ^ (v.e - w.e),
   max v.e w.e⟩

def neg (v : QRt2) : QRt2 := ⟨-v.x, -v.y, v.e⟩

def sub (v w : QRt2) : QRt2 := add v (neg w)

/-- `(x₁ + y₁√2)(x₂ + y₂√2) = (x₁x₂ + 2y₁y₂) + (x₁y₂ + y₁x₂)·√2`, and the
denominator exponents add. -/
def mul (v w : QRt2) : QRt2 :=
  ⟨v.x * w.x + 2 * v.y * w.y, v.x * w.y + v.y * w.x, v.e + w.e⟩

def zero : QRt2 := ⟨0, 0, 0⟩

def one : QRt2 := ⟨1, 0, 0⟩

/-- `1/√2 = √2/2`, the entry of the Hadamard gate. -/
def invSqrt2 : QRt2 := ⟨0, 1, 1⟩

/-- `1/2`, the real and imaginary part of the `rootX` entries. -/
def half : QRt2 := ⟨1, 0, 1⟩

/-- Equality of represented values: `(x₁ + y₁√2)/2^{e₁} = (x₂ + y₂√2)/2^{e₂}`
iff `x₁·2^{e₂} = x₂·2^{e₁}` and `y₁·2^{e₂} = y₂·2^{e₁}` (the coefficients
of `1` and `√2` over a common denominator must agree, `√2` being
irrational). -/
def beq (v w : QRt2) : Bool :=
  v.x * 2 ^ w.e == w.x * 2 ^ v.e && v.y * 2 ^ w.e == w.y * 2 ^ v.e

/-- `⌊y·√2⌋`: for `y ≥ 0` this is `⌊√(2y²)⌋`; for `y < 0` the value `y√2`
is irrational (as `y ≠ 0`), so the floor is `-⌊√(2y²)⌋ - 1`. -/
def floorSqrt2Mul (y : ℤ) : ℤ :=
  if 0 ≤ y then (isqrtN (2 * y ^ 2).toNat : ℤ)
  else -(isqrtN (2 * y ^ 2).toNat : ℤ) - 1

/-- `⌊(x + y√2) / 2^e⌋ = ⌊(x + ⌊y√2⌋) / 2^e⌋` by floor division (the
denominator is a positive integer). -/
def floorVal (v : QRt2) : ℤ := Int.fdiv (v.x + floorSqrt2Mul v.y) ((2 : ℤ) ^ v.e)

/-- Decide `v < f + 1/2` for an integer `f`: the inequality
`(x + y√2)/2^e < (2f+1)/2` is equivalent to `2y√2 < c` for
`c := (2f+1)·2^e - 2x`, which for `y ≥ 0` holds iff `0 < c ∧ 8y² < c²`,
and for `y < 0` iff `0 ≤ c ∨ c² < 8y²`. -/
def ltHalfUp (v : QRt2) (f : ℤ) : Bool :=
  let c := (2 * f + 1) * 2 ^ v.e - 2 * v.x
  if 0 ≤ v.y then decide (0 < c) && decide (8 * v.y ^ 2 < c ^ 2)
  else decide (0 ≤ c) || decide (c ^ 2 < 8 * v.y ^ 2)

/-- Decide `v = f + 1/2`: possible only when the `√2` coefficient vanishes,
i.e. `y = 0` and `2x = (2f+1)·2^e`. -/
def eqHalfUp (v : QRt2) (f : ℤ) : Bool :=
  v.y == 0 && 2 * v.x == (2 * f + 1) * 2 ^ v.e

/-- numpy rounding (round half to even) of `(x + y√2)/2^e` to an integer:
with `f = ⌊v⌋`, the result is `f` when `v < f + 1/2`, the even one of
`f, f + 1` when `v = f + 1/2`, and `f + 1` otherwise. -/
def rnd (v : QRt2) : ℤ :=
  let f := floorVal v
  if ltHalfUp v f then f
  else if eqHalfUp v f then (if f % 2 = 0 then f else f + 1)
  else f + 1

end QRt2

/-- A complex number with real and imaginary part of the form
`(x + y√2)/2^e`.  Every entry of every matrix the program manipulates lies
in this ring. -/
structure CQ where
  re : QRt2
  im : QRt2
deriving DecidableEq, Repr

namespace CQ

def add (v w : CQ) : CQ := ⟨v.re.add w.re, v.im.add w.im⟩

/-- Standard complex multiplication. -/
def mul (v w : CQ) : CQ :=
  ⟨(v.re.mul w.re).sub (v.im.mul w.im), (v.re.mul w.im).add (v.im.mul w.re)⟩

def zero : CQ := ⟨QRt2.zero, QRt2.zero⟩

def one : CQ := ⟨QRt2.one, QRt2.zero⟩

/-- The integer `n` as a complex number. -/
def ofInt (n : ℤ) : CQ := ⟨⟨n, 0, 0⟩, QRt2.zero⟩

/-- `n·i` for an integer `n`. -/
def imag (n : ℤ) : CQ := ⟨QRt2.zero, ⟨n, 0, 0⟩⟩

/-- Equality of represented complex values. -/
def beq (v w : CQ) : Bool := v.re.beq w.re && v.im.beq w.im

/-- numpy `round` on a complex number: real and imaginary part are rounded
independently, giving a Gaussian integer `(re, im)`. -/
def rnd (z : CQ) : ℤ × ℤ := (z.re.rnd, z.im.rnd)

end CQ

/-- A 2x2 matrix of `CQ` entries, the type of every gate and product. -/
structure Mat2 where
  e00 : CQ
  e01 : CQ
  e10 : CQ
  e11 : CQ
deriving DecidableEq, Repr

namespace Mat2

/-- Standard matrix multiplication (`np.dot` on 2x2 arrays). -/
def mul (A B : Mat2) : Mat2 :=
  ⟨(A.e00.mul B.e00).add (A.e01.mul B.e10),
   (A.e00.mul B.e01).add (A.e01.mul B.e11),
   (A.e10.mul B.e00).add (A.e11.mul B.e10),
   (A.e10.mul B.e01).add (A.e11.mul B.e11)⟩

/-- Entrywise equality of represented values (numpy `(A == B).all()`). -/
def beq (A B : Mat2) : Bool :=
  A.e00.beq B.e00 && A.e01.beq B.e01 && A.e10.beq B.e10 && A.e11.beq B.e11

/-- numpy `round` applied entrywise: a matrix of Gaussian integers,
each entry a pair `(re, im) : ℤ × ℤ`. -/
def rnd (A : Mat2) : (ℤ × ℤ) × (ℤ × ℤ) × (ℤ × ℤ) × (ℤ × ℤ) :=
  (A.e00.rnd, A.e01.rnd, A.e10.rnd, A.e11.rnd)

/-- A Gaussian-integer matrix injected back into `Mat2`, to compare a
rounded product against a gate matrix entrywise (numpy `==` compares
numeric values, not representations). -/
def ofGauss (g : (ℤ × ℤ) × (ℤ × ℤ) × (ℤ × ℤ) × (ℤ × ℤ)) : Mat2 :=
  ⟨⟨⟨g.1.1, 0, 0⟩, ⟨g.1.2, 0, 0⟩⟩,
   ⟨⟨g.2.1.1, 0, 0⟩, ⟨g.2.1.2, 0, 0⟩⟩,
   ⟨⟨g.2.2.1.1, 0, 0⟩, ⟨g.2.2.1.2, 0, 0⟩⟩,
   ⟨⟨g.2.2.2.1, 0, 0⟩, ⟨g.2.2.2.2, 0, 0⟩⟩⟩

end Mat2

/-- The 2x2 identity matrix as Gaussian integers, the target of the
rounded comparison. -/
def gaussI : (ℤ × ℤ) × (ℤ × ℤ) × (ℤ × ℤ) × (ℤ × ℤ) :=
  ((1, 0), (0, 0), (0, 0), (1, 0))

/-- The module-level matrices of `quantum_rules.py`, in source order.
Keeping them in a record lets theorems speak about which globals the search
reads and whether it mutates them. -/
structure GateEnv where
  I : Mat2
  rootX : Mat2
  H : Mat2
  S : Mat2
  X : Mat2
  Y : Mat2
  Z : Mat2
deriving DecidableEq, Repr

/-- The concrete module-level state of `quantum_rules.py`:
`I = [[1,0],[0,1]]`, `rootX = [[0.5+0.5i, 0.5-0.5i],[0.5-0.5i, 0.5+0.5i]]`,
`H = [[1/√2, 1/√2],[1/√2, -1/√2]]`, `S = [[1,0],[0,i]]` (since
`sin(π/2) = 1`), `X = [[0,1],[1,0]]`, `Y = [[0,-i],[i,0]]`,
`Z = [[1,0],[0,-1]]`.  The zero imaginary parts of `H` are represented as
`(0 + 0·√2)/2¹` — the same value as `0/2⁰` — so that all eight components
of each gate share one denominator exponent. -/
def quantumRules : GateEnv where
  I := ⟨CQ.ofInt 1, CQ.ofInt 0, CQ.ofInt 0, CQ.ofInt 1⟩
  rootX := ⟨⟨QRt2.half, QRt2.half⟩, ⟨QRt2.half, QRt2.half.neg⟩,
            ⟨QRt2.half, QRt2.half.neg⟩, ⟨QRt2.half, QRt2.half⟩⟩
  H := ⟨⟨QRt2.invSqrt2, ⟨0, 0, 1⟩⟩, ⟨QRt2.invSqrt2, ⟨0, 0, 1⟩⟩,
        ⟨QRt2.invSqrt2, ⟨0, 0, 1⟩⟩, ⟨QRt2.invSqrt2.neg, ⟨0, 0, 1⟩⟩⟩
  S := ⟨CQ.ofInt 1, CQ.ofInt 0, CQ.ofInt 0, CQ.imag 1⟩
  X := ⟨CQ.ofInt 0, CQ.ofInt 1, CQ.ofInt 1, CQ.ofInt 0⟩
  Y := ⟨CQ.ofInt 0, CQ.imag (-1), CQ.imag 1, CQ.ofInt 0⟩
  Z := ⟨CQ.ofInt 1, CQ.ofInt 0, CQ.ofInt 0, CQ.ofInt (-1)⟩

/-- The local list `d = [I, H, X, Y, Z]` bound at the start of
`check_identity`. -/
def dList (e : GateEnv) : List Mat2 := [e.I, e.H, e.X, e.Y, e.Z]

/-- Gate lookup `d[i]` for an index `0..4`. -/
def gate (e : GateEnv) : Fin 5 → Mat2
  | 0 => e.I
  | 1 => e.H
  | 2 => e.X
  | 3 => e.Y
  | 4 => e.Z

/-- The exact 2x2 identity matrix over `CQ`. -/
def idMat : Mat2 := ⟨CQ.one, CQ.zero, CQ.zero, CQ.one⟩

/-- The product the loop body computes for a tuple `[i, j, k, ...]`:
`np.dot(np.dot(d[i], d[j]), d[k]) ...`, i.e. the left-nested product
`((d[i]·d[j])·d[k])·...` — a left fold starting from the first gate.
(The empty tuple never occurs in the program; it is mapped to the
identity matrix.) -/
def prodG (e : GateEnv) : List (Fin 5) → Mat2
  | [] => idMat
  | i :: rest => rest.foldl (fun A j => A.mul (gate e j)) (gate e i)

/-- The loop condition of the length-8 down to length-4 blocks:
`(product.round() == I).all()` — round the product entrywise and compare
the rounded values to the entries of the global `I`. -/
def condRound (e : GateEnv) (s : List (Fin 5)) : Bool :=
  Mat2.beq (Mat2.ofGauss (Mat2.rnd (prodG e s))) e.I

/-- The loop condition of the length-3 block, which compares the product to
the global `I` WITHOUT rounding:
`(np.dot(np.dot(d[i], d[j]), d[k]) == I).all()`. -/
def condExact (e : GateEnv) (s : List (Fin 5)) : Bool :=
  Mat2.beq (prodG e s) e.I

/-- All index tuples of length `n` over `0..4` in the order produced by `n`
nested `for _ in range(0,5)` loops: lexicographic, the last index varying
fastest. -/
def enum5 : Nat → List (List (Fin 5))
  | 0 => [[]]
  | n + 1 => (List.finRange 5).flatMap fun i => (enum5 n).map (i :: ·)

/-- One block of nested loops of depth `L` with loop condition `p`: the
tuples are visited in lexicographic order and appended to the result when
`p` holds — i.e. a filter of the enumeration. -/
def loopBlock (L : Nat) (p : List (Fin 5) → Bool) : List (List (Fin 5)) :=
  (enum5 L).filter p

/-- `check_identity()` run on module state `e`: the six loop nests, lengths
8, 7, 6, 5, 4 with the rounded comparison, then length 3 with the
unrounded comparison, all appending in this order to the single list
`final_identity`. -/
def check_identityEnv (e : GateEnv) : List (List (Fin 5)) :=
  loopBlock 8 (condRound e) ++ loopBlock 7 (condRound e) ++
  loopBlock 6 (condRound e) ++ loopBlock 5 (condRound e) ++
  loopBlock 4 (condRound e) ++ loopBlock 3 (condExact e)

/-- `check_identity()` on the actual module-level gates. -/
def check_identity : List (List (Fin 5)) := check_identityEnv quantumRules

/-- `check_identity` as a state transformer on the module-level globals:
the body binds the local `d`, appends to the local `final_identity`, and
contains no assignment to any global, so the resulting module state is the
input state. -/
def check_identitySt (e : GateEnv) : List (List (Fin 5)) × GateEnv :=
  (check_identityEnv e, e)

end QG
namespace QG

theorem mem_enum5 {n : ℕ} {s : List (Fin 5)} : s ∈ enum5 n ↔ s.length = n := by
  induction n generalizing s with
  | zero => simp [enum5, List.length_eq_zero]
  | succ n ih =>
    simp only [enum5, List.mem_flatMap, List.mem_map, List.mem_finRange, true_and]
    constructor
    · rintro ⟨i, t, ht, rfl⟩
      simp [ih.mp ht]
    · intro hs
      match s, hs with
      | i :: t, hs =>
        exact ⟨i, t, ih.mpr (by simpa using hs), rfl⟩

theorem nodup_enum5 (n : ℕ) : (enum5 n).Nodup := by
  induction n with
  | zero => simp [enum5]
  | succ n ih =>
    rw [enum5, List.nodup_flatMap]
    refine ⟨fun i _ => ih.map (fun a b h => by simpa using h), ?_⟩
    refine List.Pairwise.imp ?_ (List.nodup_finRange 5)
    intro i j hij
    intro s hs hs'
    simp only [Function.onFun, List.mem_map] at hs hs'
    obtain ⟨t, -, rfl⟩ := hs
    obtain ⟨t', -, h⟩ := hs'
    exact hij (by injection h with h1 h2; exact h1.symm ▸ rfl)

theorem count_eq_one_of_nodup_mem {α : Type u_1} [BEq α] [LawfulBEq α] {l : List α} {a : α}
    (hn : l.Nodup) (ha : a ∈ l) : l.count a = 1 := by
  induction l with
  | nil => cases ha
  | cons b l ih =>
    obtain ⟨hb, hn'⟩ := List.nodup_cons.mp hn
    rw [List.count_cons]
    rcases List.mem_cons.mp ha with rfl | ha'
    · rw [List.count_eq_zero.mpr hb]
      simp
    · have hba : ¬((b == a) = true) := by
        intro hc
        exact hb ((beq_iff_eq ..).mp hc ▸ ha')
      rw [ih hn' ha']
      simp [hba]

theorem count_enum5 {n : ℕ} (s : List (Fin 5)) :
    (enum5 n).count s = if s.length = n then 1 else 0 := by
  by_cases h : s.length = n
  · rw [if_pos h]
    exact count_eq_one_of_nodup_mem (nodup_enum5 n) (mem_enum5.mpr h)
  · rw [if_neg h]
    exact List.count_eq_zero.mpr (fun hm => h (mem_enum5.mp hm))

theorem length_enum5 (n : ℕ) : (enum5 n).length = 5 ^ n := by
  induction n with
  | zero => simp [enum5]
  | succ n ih =>
    rw [enum5, List.length_flatMap]
    simp only [Function.comp_def, List.length_map, ih, List.map_const', List.sum_replicate,
      List.length_finRange, smul_eq_mul]
    rw [pow_succ, Nat.mul_comm]

theorem pairwise_lex_enum5 (n : ℕ) : (enum5 n).Pairwise (List.Lex (· < ·)) := by
  induction n with
  | zero => simp [enum5]
  | succ n ih =>
    rw [enum5, List.pairwise_flatMap]
    constructor
    · intro i _
      rw [List.pairwise_map]
      exact ih.imp (fun h => List.Lex.cons h)
    · refine List.Pairwise.imp ?_ (List.pairwise_lt_finRange 5)
      intro i j hij x hx y hy
      simp only [List.mem_map] at hx hy
      obtain ⟨t, -, rfl⟩ := hx
      obtain ⟨t', -, rfl⟩ := hy
      exact List.Lex.rel hij

theorem mem_loopBlock {L : ℕ} {p : List (Fin 5) → Bool} {s : List (Fin 5)} :
    s ∈ loopBlock L p ↔ s.length = L ∧ p s = true := by
  simp [loopBlock, List.mem_filter, mem_enum5]

theorem count_loopBlock {L : ℕ} {p : List (Fin 5) → Bool} (s : List (Fin 5)) :
    (loopBlock L p).count s = if s.length = L ∧ p s = true then 1 else 0 := by
  by_cases hp : p s = true
  · rw [loopBlock, List.count_filter hp, count_enum5]
    simp [hp]
  · have : s ∉ loopBlock L p := fun hm => hp (mem_loopBlock.mp hm).2
    rw [List.count_eq_zero.mpr this]
    simp [hp]

theorem mem_check_identityEnv {e : GateEnv} {s : List (Fin 5)} :
    s ∈ check_identityEnv e ↔
      ((s.length = 8 ∨ s.length = 7 ∨ s.length = 6 ∨ s.length = 5 ∨ s.length = 4) ∧
        condRound e s = true) ∨ (s.length = 3 ∧ condExact e s = true) := by
  simp only [check_identityEnv, List.mem_append, mem_loopBlock]
  tauto

theorem count_check_identityEnv (e : GateEnv) (s : List (Fin 5)) :
    (check_identityEnv e).count s =
      (if s.length = 8 ∧ condRound e s = true then 1 else 0) +
      (if s.length = 7 ∧ condRound e s = true then 1 else 0) +
      (if s.length = 6 ∧ condRound e s = true then 1 else 0) +
      (if s.length = 5 ∧ condRound e s = true then 1 else 0) +
      (if s.length = 4 ∧ condRound e s = true then 1 else 0) +
      (if s.length = 3 ∧ condExact e s = true then 1 else 0) := by
  simp [check_identityEnv, List.count_append, count_loopBlock, Nat.add_assoc]

end QG
namespace QG

set_option maxRecDepth 100000 in
/-- On every one of the 125 length-3 tuples, the unrounded comparison of the
length-3 block agrees with the round-then-compare rule used by the other
blocks: over exact arithmetic, a length-3 product either equals the
identity exactly, or some entry fails to round to the corresponding entry
of the identity. -/
theorem condExact_eq_condRound_triple :
    ∀ i j k : Fin 5, condExact quantumRules [i, j, k] = condRound quantumRules [i, j, k] := by
  decide

theorem condExact_eq_condRound_of_len3 {s : List (Fin 5)} (h : s.length = 3) :
    condExact quantumRules s = condRound quantumRules s := by
  match s, h with
  | [i, j, k], _ => exact condExact_eq_condRound_triple i j k

/-- Comparing a Gaussian-integer matrix (injected back into `Mat2`) with the
identity gate succeeds exactly when the Gaussian-integer matrix is the
identity. -/
theorem ofGauss_beq_I_iff (g : (ℤ × ℤ) × (ℤ × ℤ) × (ℤ × ℤ) × (ℤ × ℤ)) :
    Mat2.beq (Mat2.ofGauss g) quantumRules.I = true ↔ g = gaussI := by
  obtain ⟨⟨a, b⟩, ⟨c, d⟩, ⟨f, g'⟩, ⟨h, k⟩⟩ := g
  simp [Mat2.beq, CQ.beq, QRt2.beq, Mat2.ofGauss, quantumRules, CQ.ofInt, QRt2.zero, gaussI,
    Prod.ext_iff]
  tauto

theorem condRound_iff_rnd (s : List (Fin 5)) :
    condRound quantumRules s = true ↔ Mat2.rnd (prodG quantumRules s) = gaussI := by
  rw [condRound, ofGauss_beq_I_iff]

end QG
namespace QG

/-- Helper: membership in the search result for the concrete module state. -/
theorem mem_check_identity {s : List (Fin 5)} :
    s ∈ check_identity ↔
      ((s.length = 8 ∨ s.length = 7 ∨ s.length = 6 ∨ s.length = 5 ∨ s.length = 4) ∧
        condRound quantumRules s = true) ∨
      (s.length = 3 ∧ condExact quantumRules s = true) :=
  mem_check_identityEnv

/-- C5: for every length `L` in `[3, 8]`, the all-zeros tuple (`L` copies of
the Identity gate) is a member of the ResultSet, since `I^L = I`. -/
theorem identity_replicate_mem (L : ℕ) (h3 : 3 ≤ L) (h8 : L ≤ 8) :
    List.replicate L (0 : Fin 5) ∈ check_identity := by
  interval_cases L <;> rw [mem_check_identity] <;> decide

/-- C5 witness: the length-3 and length-8 all-zeros tuples are members. -/
theorem identity_replicate_mem_witness :
    List.replicate 3 (0 : Fin 5) ∈ check_identity ∧
      List.replicate 8 (0 : Fin 5) ∈ check_identity :=
  ⟨identity_replicate_mem 3 (by decide) (by decide),
   identity_replicate_mem 8 (by decide) (by decide)⟩

/-- C6: every tuple in the ResultSet has length between 3 and 8 inclusive,
and both bounds are attained (lengths 3 and 8 are searched; no other
length ever appears). -/
theorem result_lengths_bounded :
    (∀ s ∈ check_identity, 3 ≤ s.length ∧ s.length ≤ 8) ∧
      (∃ s ∈ check_identity, s.length = 3) ∧ (∃ s ∈ check_identity, s.length = 8) := by
  refine ⟨fun s hs => ?_, ⟨[0, 0, 0], ?_, rfl⟩, ⟨[0, 0, 0, 0, 0, 0, 0, 0], ?_, rfl⟩⟩
  · rcases mem_check_identity.mp hs with ⟨hL, -⟩ | ⟨hL, -⟩ <;> omega
  · rw [mem_check_identity]; decide
  · rw [mem_check_identity]; decide

/-- C6 witness: instantiating the universally quantified part at a concrete
member tuple. -/
theorem result_lengths_bounded_witness :
    3 ≤ ([0, 0, 0] : List (Fin 5)).length ∧ ([0, 0, 0] : List (Fin 5)).length ≤ 8 :=
  result_lengths_bounded.1 [0, 0, 0] (by rw [mem_check_identity]; decide)

/-- C7: determinism — a second invocation of the search on the module state
left behind by a first invocation returns the identical result list (same
tuples in the same order). -/
theorem check_identity_deterministic (e : GateEnv) :
    (check_identitySt ((check_identitySt e).2)).1 = (check_identitySt e).1 := rfl

/-- C9: the search has no side effects: the module state after a call is
exactly the state before it (no gate matrix is mutated), and the returned
value is a pure function of that state. -/
theorem check_identity_no_side_effects (e : GateEnv) :
    (check_identitySt e).2 = e ∧ (check_identitySt e).1 = check_identityEnv e :=
  ⟨rfl, rfl⟩

/-- C10: the search reads only the five gates `I, H, X, Y, Z` (via the local
list `d`) and the comparison target `I`; it never references the
module-level `rootX` or `S`, so two module states agreeing on those five
gates produce identical results. -/
theorem check_identity_ignores_rootX_S (e₁ e₂ : GateEnv)
    (hI : e₁.I = e₂.I) (hH : e₁.H = e₂.H) (hX : e₁.X = e₂.X)
    (hY : e₁.Y = e₂.Y) (hZ : e₁.Z = e₂.Z) :
    check_identityEnv e₁ = check_identityEnv e₂ := by
  have hg : gate e₁ = gate e₂ := by
    funext i
    fin_cases i <;> simp [gate, hI, hH, hX, hY, hZ]
  have hp : prodG e₁ = prodG e₂ := by
    funext s
    cases s with
    | nil => rfl
    | cons i rest => simp [prodG, hg]
  have hcr : condRound e₁ = condRound e₂ := by
    funext s
    rw [condRound, condRound, hp, hI]
  have hce : condExact e₁ = condExact e₂ := by
    funext s
    rw [condExact, condExact, hp, hI]
  rw [check_identityEnv, check_identityEnv, hcr, hce]

/-- C10 witness: a module state with different `rootX` and `S` (but the same
five gates) yields the same ResultSet as the actual one. -/
theorem check_identity_ignores_rootX_S_witness :
    check_identityEnv quantumRules =
      check_identityEnv { quantumRules with rootX := idMat, S := quantumRules.X } :=
  check_identity_ignores_rootX_S _ _ rfl rfl rfl rfl rfl

/-- C8: among the length-3 tuples, `(0,0,0)`, `(2,2,0)`, `(0,2,2)` and
`(2,0,2)` are in the ResultSet, and `(2,2,2)` is not (`X·X·X = X ≠ I`). -/
theorem length3_members :
    [0, 0, 0] ∈ check_identity ∧ [2, 2, 0] ∈ check_identity ∧
      [0, 2, 2] ∈ check_identity ∧ [2, 0, 2] ∈ check_identity ∧
      [2, 2, 2] ∉ check_identity := by
  refine ⟨?_, ?_, ?_, ?_, ?_⟩ <;> rw [mem_check_identity] <;> decide

end QG
namespace QG

/-- Over the EXACT-ARITHMETIC model (not the float64 program): membership
in the result is equivalent to the round-then-compare rule at every
length in `{3,...,8}`.  The length-3 block compares the product unrounded,
which over exact arithmetic coincides with the rule
(`condExact_eq_condRound_of_len3`); the coincidence does not survive
binary64 arithmetic — see `round_omitted_at_L3` below. -/
theorem round_compare_rule (s : List (Fin 5)) (h3 : 3 ≤ s.length) (h8 : s.length ≤ 8) :
    s ∈ check_identity ↔ Mat2.rnd (prodG quantumRules s) = gaussI := by
  rw [mem_check_identity, ← condRound_iff_rnd s]
  constructor
  · rintro (⟨-, hc⟩ | ⟨hL, hc⟩)
    · exact hc
    · rw [← condExact_eq_condRound_of_len3 hL]
      exact hc
  · intro hc
    rcases (by omega : s.length = 3 ∨ s.length = 4 ∨ s.length = 5 ∨ s.length = 6 ∨
        s.length = 7 ∨ s.length = 8) with hL | hL | hL | hL | hL | hL
    · exact Or.inr ⟨hL, by rw [condExact_eq_condRound_of_len3 hL]; exact hc⟩
    all_goals exact Or.inl ⟨by omega, hc⟩

/-- Over the EXACT-ARITHMETIC model (not the float64 program): the search
enumerates, for each length `L`, all `5^L` index tuples, and every tuple
appears in the result exactly once if its rounded product is the identity
and zero times otherwise.  In the float64 program this count law fails at
the length-3 block — see `qualifying_tuple_missed` below. -/
theorem enumeration_complete :
    (∀ L : ℕ, (enum5 L).length = 5 ^ L) ∧
      ∀ s : List (Fin 5), 3 ≤ s.length → s.length ≤ 8 →
        check_identity.count s =
          if Mat2.rnd (prodG quantumRules s) = gaussI then 1 else 0 := by
  refine ⟨length_enum5, fun s h3 h8 => ?_⟩
  rw [check_identity, count_check_identityEnv]
  have hL6 : s.length = 3 ∨ s.length = 4 ∨ s.length = 5 ∨ s.length = 6 ∨
      s.length = 7 ∨ s.length = 8 := by omega
  by_cases hc : condRound quantumRules s = true
  · have h2 := (condRound_iff_rnd s).mp hc
    rcases hL6 with hL | hL | hL | hL | hL | hL
    · have he := condExact_eq_condRound_of_len3 hL
      simp [hL, hc, h2, he]
    all_goals simp [hL, hc, h2]
  · have h2 : ¬Mat2.rnd (prodG quantumRules s) = gaussI := fun h =>
      hc ((condRound_iff_rnd s).mpr h)
    rcases hL6 with hL | hL | hL | hL | hL | hL
    · have he := condExact_eq_condRound_of_len3 hL
      simp [hL, hc, h2, he]
    all_goals simp [hL, hc, h2]

end QG
namespace QG

end QG
namespace QG

/-- The Product of the specification, following its words: `product =
gate[s0] · gate[s1] · ... · gate[sL-1]`, written with the right-nested
association `gate[s0] · (gate[s1] · (...))`.  Matrix multiplication is
associative, so this is the ordered left-to-right product; comparing it
with the left-nested `prodG` of the code checks that the code multiplies
the gates in the order the specification prescribes. -/
def specOrderedProduct (e : GateEnv) : List (Fin 5) → Mat2
  | [] => idMat
  | i :: rest => (gate e i).mul (specOrderedProduct e rest)

/-- All eight `QRt2` components of a matrix share the denominator exponent
`k`.  Every gate matrix is uniform in this sense, and uniformity is
preserved by multiplication (exponents add), which lets associativity of
`Mat2.mul` hold on the nose (not merely up to value equality) for all
matrices that arise in the search. -/
def UniExp (A : Mat2) (k : ℕ) : Prop :=
  A.e00.re.e = k ∧ A.e00.im.e = k ∧ A.e01.re.e = k ∧ A.e01.im.e = k ∧
  A.e10.re.e = k ∧ A.e10.im.e = k ∧ A.e11.re.e = k ∧ A.e11.im.e = k

instance (A : Mat2) (k : ℕ) : Decidable (UniExp A k) := by
  unfold UniExp
  infer_instance

/-- The denominator exponent of each gate: `1` for Hadamard, `0` otherwise. -/
def gateExp : Fin 5 → ℕ := fun i => if i = 1 then 1 else 0

theorem uniExp_idMat : UniExp idMat 0 := by decide

theorem uniExp_gate (i : Fin 5) : UniExp (gate quantumRules i) (gateExp i) := by
  fin_cases i <;> decide

theorem uniExp_mul {A B : Mat2} {ka kb : ℕ} (hA : UniExp A ka) (hB : UniExp B kb) :
    UniExp (A.mul B) (ka + kb) := by
  obtain ⟨a1, a2, a3, a4, a5, a6, a7, a8⟩ := hA
  obtain ⟨b1, b2, b3, b4, b5, b6, b7, b8⟩ := hB
  simp [UniExp, Mat2.mul, CQ.mul, CQ.add, QRt2.mul, QRt2.add, QRt2.sub, QRt2.neg,
    a1, a2, a3, a4, a5, a6, a7, a8, b1, b2, b3, b4, b5, b6, b7, b8]

theorem mul_assoc_uniExp {A B C : Mat2} {ka kb kc : ℕ}
    (hA : UniExp A ka) (hB : UniExp B kb) (hC : UniExp C kc) :
    (A.mul B).mul C = A.mul (B.mul C) := by
  obtain ⟨a1, a2, a3, a4, a5, a6, a7, a8⟩ := hA
  obtain ⟨b1, b2, b3, b4, b5, b6, b7, b8⟩ := hB
  obtain ⟨c1, c2, c3, c4, c5, c6, c7, c8⟩ := hC
  simp only [Mat2.mul, CQ.mul, CQ.add, QRt2.mul, QRt2.add, QRt2.sub, QRt2.neg,
    a1, a2, a3, a4, a5, a6, a7, a8, b1, b2, b3, b4, b5, b6, b7, b8,
    c1, c2, c3, c4, c5, c6, c7, c8, max_self, Nat.sub_self, pow_zero, mul_one,
    Mat2.mk.injEq, CQ.mk.injEq, QRt2.mk.injEq]
  refine ⟨⟨⟨?_, ?_, by omega⟩, ?_, ?_, by omega⟩, ⟨⟨?_, ?_, by omega⟩, ?_, ?_, by omega⟩,
    ⟨⟨?_, ?_, by omega⟩, ?_, ?_, by omega⟩, ⟨?_, ?_, by omega⟩, ?_, ?_, by omega⟩ <;> ring

end QG
namespace QG

attribute [ext] QRt2 CQ Mat2

theorem mul_idMat {A : Mat2} {k : ℕ} (hA : UniExp A k) : A.mul idMat = A := by
  obtain ⟨a1, a2, a3, a4, a5, a6, a7, a8⟩ := hA
  simp only [Mat2.mul, CQ.mul, CQ.add, QRt2.mul, QRt2.add, QRt2.sub, QRt2.neg, idMat,
    CQ.one, CQ.zero, QRt2.one, QRt2.zero, a1, a2, a3, a4, a5, a6, a7, a8,
    max_self, Nat.sub_self, pow_zero, mul_one, Nat.add_zero]
  ext <;> dsimp <;> omega

theorem uniExp_spec (s : List (Fin 5)) :
    UniExp (specOrderedProduct quantumRules s) ((s.map gateExp).sum) := by
  induction s with
  | nil => exact uniExp_idMat
  | cons i t ih =>
    rw [specOrderedProduct, List.map_cons, List.sum_cons]
    exact uniExp_mul (uniExp_gate i) ih

theorem foldl_mul_spec (s : List (Fin 5)) :
    ∀ (A : Mat2) (k : ℕ), UniExp A k →
      s.foldl (fun B j => B.mul (gate quantumRules j)) A =
        A.mul (specOrderedProduct quantumRules s) := by
  induction s with
  | nil => exact fun A k hA => (mul_idMat hA).symm
  | cons j t ih =>
    intro A k hA
    rw [List.foldl_cons, specOrderedProduct,
      ih _ (k + gateExp j) (uniExp_mul hA (uniExp_gate j)),
      mul_assoc_uniExp hA (uniExp_gate j) (uniExp_spec t)]

/-- C3: the Product the search tests is the ordered left-to-right matrix
product `gate[s0] · gate[s1] · ... · gate[sL-1]` under standard complex
matrix multiplication, where the gate list is `d = [I, H, X, Y, Z]`
(indices 0..4): the left-nested product the code computes equals the
specification's ordered product, and indexing `d` agrees with `gate`. -/
theorem product_is_left_to_right :
    (∀ i : Fin 5, (dList quantumRules)[(i : ℕ)]? = some (gate quantumRules i)) ∧
      ∀ s : List (Fin 5), prodG quantumRules s = specOrderedProduct quantumRules s := by
  constructor
  · intro i
    fin_cases i <;> rfl
  · intro s
    cases s with
    | nil => rfl
    | cons i rest =>
      rw [prodG, foldl_mul_spec rest (gate quantumRules i) (gateExp i) (uniExp_gate i),
        specOrderedProduct]

end QG
namespace QG

/-- The order claimed by the specification sentence under test: length
ascending, and lexicographic within a length. -/
def ordAsc (a b : List (Fin 5)) : Prop :=
  a.length < b.length ∨ (a.length = b.length ∧ List.Lex (· < ·) a b)

/-- The order the code actually produces: length descending, and
lexicographic within a length. -/
def ordDesc (a b : List (Fin 5)) : Prop :=
  b.length < a.length ∨ (a.length = b.length ∧ List.Lex (· < ·) a b)

theorem pairwise_ordDesc_loopBlock (L : ℕ) (p : List (Fin 5) → Bool) :
    (loopBlock L p).Pairwise ordDesc := by
  have hlex : (loopBlock L p).Pairwise (List.Lex (· < ·)) :=
    List.Pairwise.sublist (List.filter_sublist _) (pairwise_lex_enum5 L)
  refine hlex.imp_of_mem ?_
  intro a b ha hb hr
  exact Or.inr ⟨by rw [(mem_loopBlock.mp ha).1, (mem_loopBlock.mp hb).1], hr⟩

/-- C4 counterexample: the ResultSet is NOT ordered by length ascending —
the length-8 tuple `(0,...,0)` precedes the length-3 tuple `(0,0,0)`. -/
theorem result_not_ascending : ¬ check_identity.Pairwise ordAsc := by
  intro h
  rw [check_identity, check_identityEnv] at h
  have hz8 : [0, 0, 0, 0, 0, 0, 0, 0] ∈ loopBlock 8 (condRound quantumRules) := by
    rw [mem_loopBlock]
    exact ⟨rfl, by decide⟩
  have hz3 : [0, 0, 0] ∈ loopBlock 3 (condExact quantumRules) := by
    rw [mem_loopBlock]
    exact ⟨rfl, by decide⟩
  have hcross := (List.pairwise_append.mp h).2.2 [0, 0, 0, 0, 0, 0, 0, 0] ?_ [0, 0, 0] hz3
  · rcases hcross with hlt | ⟨heq, -⟩
    · simp at hlt
    · simp at heq
  · exact List.mem_append_left _ (List.mem_append_left _ (List.mem_append_left _
      (List.mem_append_left _ hz8)))

/-- C4 amended: the tuples of the ResultSet appear ordered by sequence
length DESCENDING (8 down to 3), and within each length in ascending
lexicographic order of the index tuple. -/
theorem result_ordered_desc_lex : check_identity.Pairwise ordDesc := by
  rw [check_identity, check_identityEnv]
  have len_of : ∀ (L : ℕ) (p : List (Fin 5) → Bool) (t : List (Fin 5)),
      t ∈ loopBlock L p → t.length = L := fun L p t ht => (mem_loopBlock.mp ht).1
  have cross : ∀ (X : List (List (Fin 5))) (M : ℕ) (L : ℕ) (p : List (Fin 5) → Bool),
      (∀ t ∈ X, M ≤ t.length) → L < M →
        ∀ a ∈ X, ∀ b ∈ loopBlock L p, ordDesc a b := by
    intro X M L p hX hLM a ha b hb
    exact Or.inl (by have := hX a ha; rw [len_of L p b hb]; omega)
  have lb8 : ∀ t ∈ loopBlock 8 (condRound quantumRules), (8 : ℕ) ≤ t.length :=
    fun t ht => (len_of _ _ t ht).ge
  have lb87 : ∀ t ∈ loopBlock 8 (condRound quantumRules) ++ loopBlock 7 (condRound quantumRules),
      (7 : ℕ) ≤ t.length := by
    intro t ht
    rcases List.mem_append.mp ht with h | h
    · exact le_trans (by omega) (lb8 t h)
    · exact (len_of _ _ t h).ge
  have lb876 : ∀ t ∈ loopBlock 8 (condRound quantumRules) ++ loopBlock 7 (condRound quantumRules)
      ++ loopBlock 6 (condRound quantumRules), (6 : ℕ) ≤ t.length := by
    intro t ht
    rcases List.mem_append.mp ht with h | h
    · exact le_trans (by omega) (lb87 t h)
    · exact (len_of _ _ t h).ge
  have lb8765 : ∀ t ∈ loopBlock 8 (condRound quantumRules) ++ loopBlock 7 (condRound quantumRules)
      ++ loopBlock 6 (condRound quantumRules) ++ loopBlock 5 (condRound quantumRules),
      (5 : ℕ) ≤ t.length := by
    intro t ht
    rcases List.mem_append.mp ht with h | h
    · exact le_trans (by omega) (lb876 t h)
    · exact (len_of _ _ t h).ge
  have lb87654 : ∀ t ∈ loopBlock 8 (condRound quantumRules) ++ loopBlock 7 (condRound quantumRules)
      ++ loopBlock 6 (condRound quantumRules) ++ loopBlock 5 (condRound quantumRules)
      ++ loopBlock 4 (condRound quantumRules), (4 : ℕ) ≤ t.length := by
    intro t ht
    rcases List.mem_append.mp ht with h | h
    · exact le_trans (by omega) (lb8765 t h)
    · exact (len_of _ _ t h).ge
  refine List.pairwise_append.mpr ⟨?_, pairwise_ordDesc_loopBlock _ _, cross _ 4 3 _ lb87654 (by omega)⟩
  refine List.pairwise_append.mpr ⟨?_, pairwise_ordDesc_loopBlock _ _, cross _ 5 4 _ lb8765 (by omega)⟩
  refine List.pairwise_append.mpr ⟨?_, pairwise_ordDesc_loopBlock _ _, cross _ 6 5 _ lb876 (by omega)⟩
  refine List.pairwise_append.mpr ⟨?_, pairwise_ordDesc_loopBlock _ _, cross _ 7 6 _ lb87 (by omega)⟩
  exact List.pairwise_append.mpr ⟨pairwise_ordDesc_loopBlock _ _,
    pairwise_ordDesc_loopBlock _ _, cross _ 8 7 _ lb8 (by omega)⟩

end QG
namespace QG

/-!
## A binary64 model of the length-3 comparison at the failing input

The exact-arithmetic embedding above is faithful for the five rounded
blocks (every exact product entry is `0`, `±1`, `±i` or of magnitude
`1/√2`, never near a rounding boundary, so a float error of order `2⁻⁵²`
cannot change a rounded comparison), but NOT for the unrounded length-3
block: the program stores `H` entries as the binary64 value of
`1/np.sqrt(2)`, whose square doubles to `1 - 2⁻⁵² ≠ 1`.  The following
model of IEEE-754 binary64 arithmetic — exact dyadic rationals rounded to
53 significant bits, ties to even; no overflow/underflow occurs in this
range — evaluates the length-3 comparison `(H·H·I == I).all()` as the
program executes it. -/

/-- Bit length of a natural number, structurally recursive on fuel
(`n` steps of fuel always suffice since the argument at least halves). -/
def blGo : ℕ → ℕ → ℕ
  | 0, _ => 0
  | f + 1, n => if n = 0 then 0 else blGo f (n / 2) + 1

/-- `bitlenN n` is the number of binary digits of `n` (`0` for `0`). -/
def bitlenN (n : ℕ) : ℕ := blGo (n + 1) n

/-- A dyadic rational `m · 2^k`.  Every finite binary64 value is of this
form; every value in this development stays far from overflow and
underflow, so the exponent range of binary64 never binds. -/
structure Dyadic where
  m : ℤ
  k : ℤ
deriving DecidableEq, Repr

namespace Dyadic

/-- Exact product. -/
def mul (a b : Dyadic) : Dyadic := ⟨a.m * b.m, a.k + b.k⟩

/-- Exact sum (align to the smaller exponent). -/
def add (a b : Dyadic) : Dyadic :=
  let k := min a.k b.k
  ⟨a.m * 2 ^ (a.k - k).toNat + b.m * 2 ^ (b.k - k).toNat, k⟩

def neg (a : Dyadic) : Dyadic := ⟨-a.m, a.k⟩

/-- Equality of represented values. -/
def beq (a b : Dyadic) : Bool :=
  let k := min a.k b.k
  a.m * 2 ^ (a.k - k).toNat == b.m * 2 ^ (b.k - k).toNat

/-- Round a dyadic to 53 significant bits, ties to even — the IEEE-754
binary64 rounding of any exact value in the normal range.  With a floor
division the remainder is nonnegative, so the same comparison against the
half-point handles negative mantissas. -/
def fl53 (d : Dyadic) : Dyadic :=
  let b := bitlenN d.m.natAbs
  if b ≤ 53 then d
  else
    let s := b - 53
    let P : ℤ := 2 ^ s
    let q := Int.fdiv d.m P
    let r := d.m - q * P
    let half : ℤ := 2 ^ (s - 1)
    let q' := if r < half then q else if half < r then q + 1
              else if q % 2 = 0 then q else q + 1
    ⟨q', d.k + s⟩

/-- binary64 multiplication: round the exact product. -/
def fmul (a b : Dyadic) : Dyadic := fl53 (mul a b)

/-- binary64 addition: round the exact sum. -/
def fadd (a b : Dyadic) : Dyadic := fl53 (add a b)

end Dyadic

/-- A 2x2 matrix of binary64 values (the real-valued `H` and `I` need no
imaginary parts). -/
structure Mat2F where
  e00 : Dyadic
  e01 : Dyadic
  e10 : Dyadic
  e11 : Dyadic
deriving DecidableEq, Repr

/-- `np.dot` on 2x2 float64 matrices: each entry is the rounded sum of the
two rounded products. -/
def dotF (A B : Mat2F) : Mat2F :=
  ⟨(A.e00.fmul B.e00).fadd (A.e01.fmul B.e10),
   (A.e00.fmul B.e01).fadd (A.e01.fmul B.e11),
   (A.e10.fmul B.e00).fadd (A.e11.fmul B.e10),
   (A.e10.fmul B.e01).fadd (A.e11.fmul B.e11)⟩

/-- Entrywise float comparison (`(A == B).all()`). -/
def Mat2F.beqF (A B : Mat2F) : Bool :=
  A.e00.beq B.e00 && A.e01.beq B.e01 && A.e10.beq B.e10 && A.e11.beq B.e11

/-- The binary64 value of `np.sqrt(2)`: the correctly rounded `√2`,
namely `6369051672525773 · 2⁻⁵²` (certified by `sqrt2F_correct`). -/
def sqrt2F : Dyadic := ⟨6369051672525773, -52⟩

/-- The binary64 value of `1/np.sqrt(2)`: the correctly rounded quotient
`1 / sqrt2F`, namely `6369051672525772 · 2⁻⁵³` (certified by
`invSqrt2F_correct`). -/
def invSqrt2F : Dyadic := ⟨6369051672525772, -53⟩

/-- The float64 Hadamard matrix the program stores:
`[[1/np.sqrt(2), 1/np.sqrt(2)], [1/np.sqrt(2), -1/np.sqrt(2)]]`. -/
def floatH : Mat2F := ⟨invSqrt2F, invSqrt2F, invSqrt2F, invSqrt2F.neg⟩

/-- The identity matrix as float values. -/
def floatI : Mat2F := ⟨⟨1, 0⟩, ⟨0, 0⟩, ⟨0, 0⟩, ⟨1, 0⟩⟩

set_option maxRecDepth 10000 in
/-- `sqrt2F` is the binary64 value nearest `√2`: squaring the strict
enclosure `2m - 1 < 2⁵³·√2 < 2m + 1` gives integer inequalities (a tie is
impossible, `√2` being irrational), so `√2` lies strictly inside the
half-ulp interval around `m·2⁻⁵²`. -/
theorem sqrt2F_correct :
    (2 * sqrt2F.m - 1) ^ 2 < 2 ^ 107 ∧ (2 ^ 107 : ℤ) < (2 * sqrt2F.m + 1) ^ 2 ∧
      sqrt2F.k = -52 := by
  refine ⟨by decide, by decide, rfl⟩

set_option maxRecDepth 10000 in
/-- `invSqrt2F` is the binary64 value nearest `1 / sqrt2F`: the target is
`2⁵²/M` for `M = sqrt2F.m`, and `|m' - 2¹⁰⁵/M| < 1/2` cross-multiplies
(with `M > 0`, and no tie since `M` is odd) to the integer enclosure
below, so `1/sqrt2F` lies strictly inside the half-ulp interval around
`m'·2⁻⁵³`. -/
theorem invSqrt2F_correct :
    (2 * invSqrt2F.m - 1) * sqrt2F.m < 2 ^ 106 ∧
      (2 ^ 106 : ℤ) < (2 * invSqrt2F.m + 1) * sqrt2F.m ∧ invSqrt2F.k = -53 := by
  refine ⟨by decide, by decide, rfl⟩

set_option maxRecDepth 100000 in
/-- C1: the program does NOT apply the round-then-compare rule at every
length: the length-3 block omits `.round()`, and that omission changes
behaviour.  Evaluated at the failing input `(1,1,0)` (the product
`H·H·I`): under binary64 arithmetic the exact comparison the program runs,
`(np.dot(np.dot(H,H),I) == I).all()`, is false — the diagonal is
`1 - 2⁻⁵² ≠ 1` — although the rounded product of the tuple is exactly the
2x2 identity matrix, so the claim's rule would append it. -/
theorem round_omitted_at_L3 :
    Mat2F.beqF (dotF (dotF floatH floatH) floatI) floatI = false ∧
      Mat2.rnd (prodG quantumRules [1, 1, 0]) = gaussI :=
  ⟨by decide, by decide⟩

set_option maxRecDepth 100000 in
/-- C2: a qualifying tuple is missing from the program's ResultSet: the
length-3 tuple `(1,1,0)` is among the `5³` tuples the loops enumerate and
its rounded product equals the identity — the claim says it must appear
exactly once — but the binary64 comparison of the length-3 block (which
compares unrounded) rejects it, so the program appends it zero times. -/
theorem qualifying_tuple_missed :
    [1, 1, 0] ∈ enum5 3 ∧ Mat2.rnd (prodG quantumRules [1, 1, 0]) = gaussI ∧
      Mat2F.beqF (dotF (dotF floatH floatH) floatI) floatI = false :=
  ⟨by decide, by decide, by decide⟩

end QG
